import Mathlib

/-!
Verification of the personal-semantic-search indexing/retrieval core.

Python strings are modelled as `List Char`, Python floats (file mtimes,
distances, scores) as rationals, and the external collaborators (the
langchain text splitter, the tiktoken tokenizer, the sentence-transformers
embedder and the ChromaDB collection) as parameters respectively as a keyed
store with the documented insert-or-replace semantics.
-/

namespace SemanticSearch

/-- Python strings are modelled as lists of characters. -/
abbrev Str := List Char

/-- Model of `chunk.source_path.replace('\\', '/')` in `make_chunk_id`
(vector_store.py).  The pattern is a single character, so Python's substring
replacement coincides with a character-wise map. -/
def normalizeSeps (p : Str) : Str :=
  p.map (fun c => if c = '\\' then '/' else c)

/-- Decimal rendering of a natural number, written with an explicit fuel
argument (one digit per step, so `n + 1` steps always suffice) to keep the
recursion structural. -/
def toDecimalAux : Nat → Nat → Str → Str
  | 0, _, acc => acc
  | fuel + 1, n, acc =>
    if n < 10 then Nat.digitChar n :: acc
    else toDecimalAux fuel (n / 10) (Nat.digitChar (n % 10) :: acc)

/-- Decimal rendering of a natural number, as produced by Python `str` inside
the f-string of `make_chunk_id`. -/
def toDecimal (n : Nat) : Str := toDecimalAux (n + 1) n []

theorem toDecimalAux_fuel :
    ∀ (n f1 f2 : Nat) (acc : Str), n < f1 → n < f2 →
      toDecimalAux f1 n acc = toDecimalAux f2 n acc := by
  intro n
  induction n using Nat.strong_induction_on with
  | _ n ih =>
    intro f1 f2 acc h1 h2
    cases f1 with
    | zero => omega
    | succ f1' =>
      cases f2 with
      | zero => omega
      | succ f2' =>
        simp only [toDecimalAux]
        split
        · rfl
        · next h =>
          have hdiv : n / 10 < n := Nat.div_lt_self (by omega) (by omega)
          exact ih (n / 10) hdiv f1' f2' _ (by omega) (by omega)

theorem toDecimalAux_acc :
    ∀ (n fuel : Nat) (acc : Str), n < fuel →
      toDecimalAux fuel n acc = toDecimalAux fuel n [] ++ acc := by
  intro n
  induction n using Nat.strong_induction_on with
  | _ n ih =>
    intro fuel acc h
    cases fuel with
    | zero => omega
    | succ f =>
      simp only [toDecimalAux]
      split
      · rfl
      · next h10 =>
        have hdiv : n / 10 < n := Nat.div_lt_self (by omega) (by omega)
        rw [ih (n / 10) hdiv f _ (by omega), ih (n / 10) hdiv f [Nat.digitChar (n % 10)]
          (by omega)]
        simp

/-- The recursion equation of `toDecimal`: peel off the last decimal digit. -/
theorem toDecimal_eq (n : Nat) :
    toDecimal n =
      if n < 10 then [Nat.digitChar n]
      else toDecimal (n / 10) ++ [Nat.digitChar (n % 10)] := by
  by_cases h : n < 10
  · rw [if_pos h]
    show toDecimalAux (n + 1) n [] = _
    simp [toDecimalAux, h]
  · rw [if_neg h]
    have hdiv : n / 10 < n := Nat.div_lt_self (by omega) (by omega)
    show toDecimalAux (n + 1) n [] = _
    rw [show toDecimalAux (n + 1) n [] =
      toDecimalAux n (n / 10) [Nat.digitChar (n % 10)] from by simp [toDecimalAux, h]]
    rw [toDecimalAux_acc (n / 10) n _ (by omega),
      toDecimalAux_fuel (n / 10) n (n / 10 + 1) [] (by omega) (by omega)]
    rfl

/-- Reads a decimal digit string back into a number; used only to show that
`toDecimal` is injective. -/
def evalDecimal (s : Str) : Nat :=
  s.foldl (fun a c => 10 * a + (c.toNat - 48)) 0

/-- Model of the `Document` dataclass (file_reader.py). -/
structure Document where
  path : Str
  content : Str
  file_type : Str
  modified : Rat
  deriving DecidableEq, Inhabited

/-- Model of the `Chunk` dataclass (text_chunker.py).  `char_start` is an
integer because the running-offset fallback in `chunk_document` can go
negative. -/
structure Chunk where
  content : Str
  source_path : Str
  file_type : Str
  chunk_index : Nat
  total_chunks : Nat
  modified : Rat
  char_start : Int
  char_end : Int
  headers : List Str
  token_count : Nat
  deriving DecidableEq, Inhabited

/-- Model of `make_chunk_id` (vector_store.py): normalize the separators of
the source path, then append the marker and the decimal chunk index. -/
def make_chunk_id (c : Chunk) : Str :=
  normalizeSeps c.source_path ++ "::chunk_".toList ++ toDecimal c.chunk_index

theorem digitChar_isDigit {m : Nat} (h : m < 10) : (Nat.digitChar m).isDigit = true := by
  interval_cases m <;> decide

theorem digitChar_toNat {m : Nat} (h : m < 10) : (Nat.digitChar m).toNat = 48 + m := by
  interval_cases m <;> decide

theorem evalDecimal_append_digit (s : Str) (c : Char) :
    evalDecimal (s ++ [c]) = 10 * evalDecimal s + (c.toNat - 48) := by
  simp [evalDecimal, List.foldl_append]

theorem evalDecimal_toDecimal (n : Nat) : evalDecimal (toDecimal n) = n := by
  induction n using Nat.strong_induction_on with
  | _ n ih =>
    rw [toDecimal_eq]
    split
    · next h =>
      simp [evalDecimal, digitChar_toNat h]
    · next h =>
      rw [evalDecimal_append_digit]
      have hlt : n / 10 < n := Nat.div_lt_self (by omega) (by omega)
      rw [ih (n / 10) hlt, digitChar_toNat (Nat.mod_lt _ (by omega))]
      omega

theorem toDecimal_injective : Function.Injective toDecimal := by
  intro a b h
  have := congrArg evalDecimal h
  rwa [evalDecimal_toDecimal, evalDecimal_toDecimal] at this

theorem toDecimal_all_digits (n : Nat) : ∀ c ∈ toDecimal n, c.isDigit = true := by
  induction n using Nat.strong_induction_on with
  | _ n ih =>
    rw [toDecimal_eq]
    split
    · next h =>
      intro c hc
      simp at hc
      subst hc
      exact digitChar_isDigit h
    · next h =>
      intro c hc
      have hlt : n / 10 < n := Nat.div_lt_self (by omega) (by omega)
      rcases List.mem_append.mp hc with h1 | h2
      · exact ih (n / 10) hlt c h1
      · simp at h2
        subst h2
        exact digitChar_isDigit (Nat.mod_lt _ (by omega))

/-- Cancellation for a digit-only block followed by a block that opens with a
non-digit character. -/
theorem digits_append_cancel :
    ∀ (a1 : Str) (a2 s1 s2 : Str),
      (∀ c ∈ a1, c.isDigit = true) → (∀ c ∈ a2, c.isDigit = true) →
      (∀ c ∈ s1.head?, c.isDigit = false) → (∀ c ∈ s2.head?, c.isDigit = false) →
      a1 ++ s1 = a2 ++ s2 → a1 = a2 ∧ s1 = s2 := by
  intro a1
  induction a1 with
  | nil =>
    intro a2 s1 s2 _ h2 hs1 _ heq
    cases a2 with
    | nil => exact ⟨rfl, heq⟩
    | cons c a2' =>
      exfalso
      simp at heq
      have hd : s1.head? = some c := by rw [heq]; rfl
      have := hs1 c (by rw [hd]; simp)
      have := h2 c (by simp)
      simp_all
  | cons c a1' ih =>
    intro a2 s1 s2 h1 h2 hs1 hs2 heq
    cases a2 with
    | nil =>
      exfalso
      simp at heq
      have hd : s2.head? = some c := by rw [← heq]; rfl
      have := hs2 c (by rw [hd]; simp)
      have := h1 c (by simp)
      simp_all
    | cons c2 a2' =>
      simp at heq
      obtain ⟨hc, htail⟩ := heq
      subst hc
      obtain ⟨ha, hs⟩ := ih a2' s1 s2 (fun x hx => h1 x (by simp [hx]))
        (fun x hx => h2 x (by simp [hx])) hs1 hs2 htail
      exact ⟨by rw [ha], hs⟩

theorem head?_marker_rev (p : Str) :
    (("::chunk_".toList.reverse ++ p).head?) = some '_' := by
  rfl

/-- C10.  Chunk-id generation is injective up to path normalization:
`make_chunk_id` produces the same id for two chunks if and only if the
separator-normalized source paths agree and the chunk indices agree; in
particular a path ending in a `::chunk_<digits>` suffix cannot collide with a
different path's chunk id, because a decimal chunk index never contains the
marker. -/
theorem c10_make_chunk_id_injective (c1 c2 : Chunk) :
    make_chunk_id c1 = make_chunk_id c2 ↔
      (normalizeSeps c1.source_path = normalizeSeps c2.source_path ∧
        c1.chunk_index = c2.chunk_index) := by
  constructor
  · intro h
    have hrev := congrArg List.reverse h
    simp only [make_chunk_id, List.reverse_append, List.append_assoc] at hrev
    have hmain := digits_append_cancel
      (toDecimal c1.chunk_index).reverse (toDecimal c2.chunk_index).reverse
      ("::chunk_".toList.reverse ++ (normalizeSeps c1.source_path).reverse)
      ("::chunk_".toList.reverse ++ (normalizeSeps c2.source_path).reverse)
      (fun c hc => toDecimal_all_digits _ c (List.mem_reverse.mp hc))
      (fun c hc => toDecimal_all_digits _ c (List.mem_reverse.mp hc))
      (by intro c hc; rw [head?_marker_rev] at hc; simp at hc; subst hc; decide)
      (by intro c hc; rw [head?_marker_rev] at hc; simp at hc; subst hc; decide)
      hrev
    obtain ⟨hd, hrest⟩ := hmain
    refine ⟨?_, toDecimal_injective (List.reverse_injective hd)⟩
    have := List.append_cancel_left hrest
    exact List.reverse_injective this
  · intro ⟨hp, hi⟩
    simp [make_chunk_id, hp, hi]

/-- Two paths that differ only in the direction of their path separators:
same length, and at each position the characters agree or are both a
separator. -/
def sepOnlyDiff (p q : Str) : Prop :=
  p.length = q.length ∧
    ∀ pr ∈ p.zip q, pr.1 = pr.2 ∨
      ((pr.1 = '/' ∨ pr.1 = '\\') ∧ (pr.2 = '/' ∨ pr.2 = '\\'))

instance (p q : Str) : Decidable (sepOnlyDiff p q) := by
  unfold sepOnlyDiff
  infer_instance

theorem normalizeSeps_eq_of_sepOnlyDiff :
    ∀ p q : Str, sepOnlyDiff p q → normalizeSeps p = normalizeSeps q := by
  intro p
  induction p with
  | nil =>
    intro q h
    cases q with
    | nil => rfl
    | cons c q' => exact absurd h.1 (by simp)
  | cons c p' ih =>
    intro q h
    cases q with
    | nil => exact absurd h.1 (by simp)
    | cons d q' =>
      obtain ⟨hlen, hall⟩ := h
      have hhd := hall (c, d) (by simp [List.zip_cons_cons])
      simp only at hhd
      have htl : sepOnlyDiff p' q' := by
        refine ⟨by simpa using hlen, fun pr hpr => hall pr ?_⟩
        simp [List.zip_cons_cons, hpr]
      have htail := ih q' htl
      simp only [normalizeSeps] at htail
      have hc : (if c = '\\' then '/' else c) = (if d = '\\' then '/' else d) := by
        rcases hhd with h1 | ⟨h2, h3⟩
        · rw [h1]
        · rcases h2 with h2 | h2 <;> rcases h3 with h3 | h3 <;>
            subst h2 <;> subst h3 <;> decide
      simp only [normalizeSeps, List.map_cons]
      rw [hc, htail]

/-- C4.  Chunk identity is path-separator-invariant: for two source paths
that differ only in the direction of their path separators and an equal
chunk index, `make_chunk_id` produces the same id. -/
theorem c4_make_chunk_id_sep_invariant (c1 c2 : Chunk)
    (hpath : sepOnlyDiff c1.source_path c2.source_path)
    (hidx : c1.chunk_index = c2.chunk_index) :
    make_chunk_id c1 = make_chunk_id c2 := by
  simp [make_chunk_id, normalizeSeps_eq_of_sepOnlyDiff _ _ hpath, hidx]

/-- A chunk of `a/b.md` used to witness separator invariance. -/
def chunkSlash : Chunk :=
  { content := "x".toList, source_path := "a/b.md".toList, file_type := "md".toList,
    chunk_index := 0, total_chunks := 1, modified := 1, char_start := 0,
    char_end := 1, headers := [], token_count := 1 }

/-- The same chunk with a backslash-separated path. -/
def chunkBackslash : Chunk :=
  { chunkSlash with source_path := "a\\b.md".toList }

theorem c4_make_chunk_id_sep_invariant_witness :
    sepOnlyDiff chunkSlash.source_path chunkBackslash.source_path ∧
      make_chunk_id chunkSlash = make_chunk_id chunkBackslash :=
  ⟨by decide, c4_make_chunk_id_sep_invariant chunkSlash chunkBackslash (by decide) rfl⟩

/-- Worker for the leftmost, non-overlapping split on a separator string;
each step consumes at least one character, so fuel equal to the length of the
input always suffices, and the recursion stays structural. -/
def splitOnAux (sep : Str) : Nat → Str → List Str
  | _, [] => [[]]
  | 0, s => [s]
  | fuel + 1, c :: rest =>
    if sep ≠ [] ∧ sep.isPrefixOf (c :: rest) then
      [] :: splitOnAux sep fuel ((c :: rest).drop sep.length)
    else
      match splitOnAux sep fuel rest with
      | [] => [[c]]
      | hd :: tl => (c :: hd) :: tl

/-- Leftmost, non-overlapping split on a separator string, the semantics of
Python `str.split(sep)` for a non-empty `sep`; used for `content.split('\n')`
in `extract_headers` and `headers.split(" > ")` in `metadata_to_chunk`. -/
def splitOnStr (sep : Str) (s : Str) : List Str := splitOnAux sep s.length s

theorem splitOnAux_fuel (sep : Str) :
    ∀ (n : Nat) (s : Str) (f1 f2 : Nat), s.length ≤ n → s.length ≤ f1 →
      s.length ≤ f2 → splitOnAux sep f1 s = splitOnAux sep f2 s := by
  intro n
  induction n with
  | zero =>
    intro s f1 f2 hn _ _
    have hs : s = [] := List.eq_nil_of_length_eq_zero (by omega)
    subst hs
    cases f1 <;> cases f2 <;> rfl
  | succ n ih =>
    intro s f1 f2 hn h1 h2
    cases s with
    | nil => cases f1 <;> cases f2 <;> rfl
    | cons c rest =>
      cases f1 with
      | zero => simp at h1
      | succ f1' =>
        cases f2 with
        | zero => simp at h2
        | succ f2' =>
          simp only [splitOnAux]
          split
          · next hcond =>
            have hsep : 0 < sep.length := List.length_pos.mpr hcond.1
            simp only [List.length_cons] at hn h1 h2
            rw [ih ((c :: rest).drop sep.length) f1' f2'
              (by simp [List.length_drop]; omega)
              (by simp [List.length_drop]; omega)
              (by simp [List.length_drop]; omega)]
          · simp only [List.length_cons] at hn h1 h2
            rw [ih rest f1' f2' (by omega) (by omega) (by omega)]

theorem splitOnStr_nil (sep : Str) : splitOnStr sep [] = [[]] := rfl

/-- The recursion equation of `splitOnStr`. -/
theorem splitOnStr_cons (sep : Str) (c : Char) (rest : Str) :
    splitOnStr sep (c :: rest) =
      if sep ≠ [] ∧ sep.isPrefixOf (c :: rest) then
        [] :: splitOnStr sep ((c :: rest).drop sep.length)
      else
        match splitOnStr sep rest with
        | [] => [[c]]
        | hd :: tl => (c :: hd) :: tl := by
  show splitOnAux sep (rest.length + 1) (c :: rest) = _
  simp only [splitOnAux]
  split
  · next hcond =>
    have hsep : 0 < sep.length := List.length_pos.mpr hcond.1
    rw [splitOnAux_fuel sep rest.length ((c :: rest).drop sep.length) rest.length
      ((c :: rest).drop sep.length).length
      (by simp [List.length_drop]; omega)
      (by simp [List.length_drop]; omega)
      (le_refl _)]
    rfl
  · rfl

/-- Python slice `s[:i]`, including the negative-index convention; the
fallback running offset in `chunk_document` can pass a negative position to
`extract_headers`. -/
def pySliceTo (s : Str) (i : Int) : Str :=
  s.take ((if 0 ≤ i then i else (s.length : Int) + i).toNat)

/-- One line of the header scan of `extract_headers` (text_chunker.py): the
state is the current `(h1, h2, h3)` triple, an `# ` line resets levels 2 and
3, an `## ` line resets level 3, an `### ` line sets level 3, every other
line (including headers of level 4 and deeper) leaves the state unchanged. -/
def updateHeaderState (st : Option Str × Option Str × Option Str) (line : Str) :
    Option Str × Option Str × Option Str :=
  if "# ".toList.isPrefixOf line && !("##".toList.isPrefixOf line) then
    (some line, none, none)
  else if "## ".toList.isPrefixOf line && !("###".toList.isPrefixOf line) then
    (st.1, some line, none)
  else if "### ".toList.isPrefixOf line then
    (st.1, st.2.1, some line)
  else st

/-- The currently active header levels, outermost first.  The Python code
appends each of `current_h1/h2/h3` when truthy; the stored lines always start
with a header marker so they are never the empty string, and truthiness
coincides with being set. -/
def activeHeaders (st : Option Str × Option Str × Option Str) : List Str :=
  [st.1, st.2.1, st.2.2].filterMap id

/-- Model of `extract_headers` (text_chunker.py): scan all lines before
`char_position` and return the active header stack. -/
def extract_headers (content : Str) (char_position : Int) : List Str :=
  let lines := splitOnStr ['\n'] (pySliceTo content char_position)
  activeHeaders (lines.foldl updateHeaderState (none, none, none))

/-- Python `content.find(search, start)` for a non-negative `start`,
returning the smallest index `≥ start` at which `search` occurs (`none` for
Python's `-1`). -/
def findFrom (s sub : Str) (start : Nat) : Option Nat :=
  (List.range (s.length + 1)).find? (fun i => decide (start ≤ i) && sub.isPrefixOf (s.drop i))

/-- First pass of `chunk_document` (text_chunker.py): walk the splitter's
texts carrying the running index `i` and expected offset `pos`
(`char_position`); each chunk locates its leading fragment (`text[:50]`, which
is `take 50` in both branches of the Python conditional) from
`max 0 (pos - 150)` and falls back to `pos` itself, and is stamped with the
provisional `total_chunks := numTexts`.  The tokenizer `tok` models the
external tiktoken `count_tokens`. -/
def chunkFirstPass (tok : Str → Nat) (doc : Document) (numTexts : Nat) :
    List Str → Nat → Int → List Chunk
  | [], _, _ => []
  | text :: rest, i, pos =>
    let searchText := text.take 50
    let fromIdx := (max 0 (pos - 150)).toNat
    let char_start : Int :=
      match findFrom doc.content searchText fromIdx with
      | some j => (j : Int)
      | none => pos
    { content := text, source_path := doc.path, file_type := doc.file_type,
      chunk_index := i, total_chunks := numTexts, modified := doc.modified,
      char_start := char_start, char_end := char_start + (text.length : Int),
      headers := extract_headers doc.content char_start,
      token_count := tok text } ::
      chunkFirstPass tok doc numTexts rest (i + 1) (char_start + (text.length : Int) - 100)

/-- Model of `chunk_document` (text_chunker.py): split (via the external
langchain splitter `split`), build the chunks, then re-stamp every chunk with
the final count in a second pass. -/
def chunk_document (tok : Str → Nat) (split : Str → List Str) (doc : Document) : List Chunk :=
  let texts := split doc.content
  let chunks := chunkFirstPass tok doc texts.length texts 0 0
  chunks.map (fun c => { c with total_chunks := chunks.length })

/-- Python `str.strip()`: drop leading and trailing whitespace. -/
def pyStrip (s : Str) : Str :=
  ((s.dropWhile Char.isWhitespace).reverse.dropWhile Char.isWhitespace).reverse

/-- Model of `chunk_all` (text_chunker.py): chunk every document whose
content is non-empty after stripping, and concatenate. -/
def chunk_all (tok : Str → Nat) (split : Str → List Str) (docs : List Document) : List Chunk :=
  docs.foldl
    (fun acc doc =>
      if pyStrip doc.content ≠ [] then acc ++ chunk_document tok split doc else acc)
    []

/-- C6.  Header lineage: `extract_headers` scans all lines before the given
offset with a three-level header stack — a level-1 header clears levels 2 and
3, a level-2 header clears level 3, a level-3 header only sets level 3,
headers of level 4 or deeper change nothing — and returns exactly the active
levels, outermost first, hence at most 3 entries. -/
theorem c6_extract_headers_stack (content : Str) (pos : Int) :
    extract_headers content pos =
      activeHeaders
        ((splitOnStr ['\n'] (pySliceTo content pos)).foldl updateHeaderState
          (none, none, none)) ∧
    (∀ st rest, updateHeaderState st ('#' :: ' ' :: rest) =
      (some ('#' :: ' ' :: rest), none, none)) ∧
    (∀ st rest, updateHeaderState st ('#' :: '#' :: ' ' :: rest) =
      (st.1, some ('#' :: '#' :: ' ' :: rest), none)) ∧
    (∀ st rest, updateHeaderState st ('#' :: '#' :: '#' :: ' ' :: rest) =
      (st.1, st.2.1, some ('#' :: '#' :: '#' :: ' ' :: rest))) ∧
    (∀ st rest, updateHeaderState st ('#' :: '#' :: '#' :: '#' :: rest) = st) ∧
    (extract_headers content pos).length ≤ 3 := by
  refine ⟨rfl, ?_, ?_, ?_, ?_, ?_⟩
  · intro st rest
    simp [updateHeaderState, List.isPrefixOf]
  · intro st rest
    simp [updateHeaderState, List.isPrefixOf]
  · intro st rest
    simp [updateHeaderState, List.isPrefixOf]
  · intro st rest
    simp [updateHeaderState, List.isPrefixOf]
  · have : ∀ st, (activeHeaders st).length ≤ 3 := by
      intro ⟨a, b, c⟩
      cases a <;> cases b <;> cases c <;> simp [activeHeaders]
    exact this _

theorem chunkFirstPass_length (tok : Str → Nat) (doc : Document) (n : Nat) :
    ∀ (texts : List Str) (i : Nat) (pos : Int),
      (chunkFirstPass tok doc n texts i pos).length = texts.length := by
  intro texts
  induction texts with
  | nil => intro i pos; rfl
  | cons t rest ih =>
    intro i pos
    simp only [chunkFirstPass, List.length_cons]
    rw [ih]

theorem chunkFirstPass_chunk_index (tok : Str → Nat) (doc : Document) (n : Nat) :
    ∀ (texts : List Str) (i0 : Nat) (pos : Int) (j : Nat)
      (h : j < (chunkFirstPass tok doc n texts i0 pos).length),
      ((chunkFirstPass tok doc n texts i0 pos)[j]).chunk_index = i0 + j := by
  intro texts
  induction texts with
  | nil =>
    intro i0 pos j h
    simp [chunkFirstPass] at h
  | cons t rest ih =>
    intro i0 pos j h
    cases j with
    | zero => simp [chunkFirstPass]
    | succ j' =>
      simp only [chunkFirstPass, List.getElem_cons_succ]
      rw [ih]
      omega

theorem chunk_document_chunk_index_getElem (tok : Str → Nat) (split : Str → List Str)
    (doc : Document) (i : Nat) (h : i < (chunk_document tok split doc).length) :
    ((chunk_document tok split doc)[i]).chunk_index = i := by
  have hlen : i < (chunkFirstPass tok doc (split doc.content).length
      (split doc.content) 0 0).length := by
    simpa [chunk_document] using h
  simp only [chunk_document, List.getElem_map]
  have := chunkFirstPass_chunk_index tok doc (split doc.content).length
    (split doc.content) 0 0 i hlen
  simpa using this

theorem chunk_document_total_getElem (tok : Str → Nat) (split : Str → List Str)
    (doc : Document) (i : Nat) (h : i < (chunk_document tok split doc).length) :
    ((chunk_document tok split doc)[i]).total_chunks =
      (chunk_document tok split doc).length := by
  simp [chunk_document]

/-- C5.  Chunks from one chunking pass have consecutive indices starting at
0 (`chunk_index = position in the list`, hence
`0 ≤ chunk_index < total_chunks`), and every chunk carries the same
`total_chunks`, the final number of chunks stamped in the second pass. -/
theorem c5_chunk_indices_consecutive (tok : Str → Nat) (split : Str → List Str)
    (doc : Document) (i : Nat) (h : i < (chunk_document tok split doc).length) :
    ((chunk_document tok split doc).getD i default).chunk_index = i ∧
    ((chunk_document tok split doc).getD i default).total_chunks =
      (chunk_document tok split doc).length := by
  rw [List.getD_eq_getElem _ _ h]
  exact ⟨chunk_document_chunk_index_getElem tok split doc i h,
    chunk_document_total_getElem tok split doc i h⟩

/-- A concrete tokenizer for witnesses: token count = character count. -/
def cTok : Str → Nat := fun s => s.length

/-- A concrete two-piece splitter with a 2-character overlap. -/
def cSplit2 : Str → List Str := fun s => [s.take 3, s.drop 1]

/-- A concrete document for witnesses. -/
def cDoc : Document :=
  { path := "note.md".toList, content := "hello".toList,
    file_type := "md".toList, modified := 5 }

theorem c5_chunk_indices_consecutive_witness :
    1 < (chunk_document cTok cSplit2 cDoc).length ∧
    ((chunk_document cTok cSplit2 cDoc).getD 1 default).chunk_index = 1 ∧
    ((chunk_document cTok cSplit2 cDoc).getD 1 default).total_chunks =
      (chunk_document cTok cSplit2 cDoc).length :=
  ⟨by decide, c5_chunk_indices_consecutive cTok cSplit2 cDoc 1 (by decide)⟩

theorem extract_headers_zero (content : Str) : extract_headers content 0 = [] := by
  simp [extract_headers, pySliceTo, splitOnStr, splitOnAux, updateHeaderState,
    activeHeaders]

theorem findFrom_prefix_zero (content sub : Str) (hsub : sub <+: content) :
    findFrom content sub 0 = some 0 := by
  unfold findFrom
  rw [List.range_succ_eq_map]
  rw [List.find?_cons_of_pos]
  simp [List.isPrefixOf_iff_prefix, hsub]

/-- C7.  Chunker edge behaviour on small inputs: a document that is empty or
whitespace-only after trimming yields zero chunks; a document with non-empty
trimmed content for which the splitter returns the whole content as a single
piece (its behaviour whenever the token count fits the 512-token budget)
yields exactly one chunk spanning the whole content: `char_start = 0`,
`char_end = length`, `chunk_index = 0`, `total_chunks = 1`. -/
theorem c7_chunker_small_inputs (tok : Str → Nat) (split : Str → List Str)
    (doc : Document) :
    (pyStrip doc.content = [] → chunk_all tok split [doc] = []) ∧
    (pyStrip doc.content ≠ [] → split doc.content = [doc.content] →
      chunk_all tok split [doc] =
        [{ content := doc.content, source_path := doc.path,
           file_type := doc.file_type, chunk_index := 0, total_chunks := 1,
           modified := doc.modified, char_start := 0,
           char_end := (doc.content.length : Int), headers := [],
           token_count := tok doc.content }]) := by
  constructor
  · intro hempty
    simp [chunk_all, hempty]
  · intro hne hsplit
    have hfind : findFrom doc.content (doc.content.take 50) 0 = some 0 :=
      findFrom_prefix_zero _ _ (List.take_prefix _ _)
    simp [chunk_all, hne, chunk_document, hsplit, chunkFirstPass, hfind,
      extract_headers_zero]

/-- A concrete one-piece splitter for witnesses. -/
def cSplit1 : Str → List Str := fun s => [s]

theorem c7_chunker_small_inputs_witness :
    pyStrip cDoc.content ≠ [] ∧
    chunk_all cTok cSplit1 [cDoc] =
      [{ content := "hello".toList, source_path := "note.md".toList,
         file_type := "md".toList, chunk_index := 0, total_chunks := 1,
         modified := 5, char_start := 0, char_end := 5, headers := [],
         token_count := 5 }] :=
  ⟨by decide, (c7_chunker_small_inputs cTok cSplit1 cDoc).2 (by decide) rfl⟩

/-- Python `sep.join(xs)`. -/
def pyJoin (sep : Str) : List Str → Str
  | [] => []
  | [x] => x
  | x :: y :: t => x ++ sep ++ pyJoin sep (y :: t)

/-- The final path component, model of `Path(p).name` as used for the
`file_name` metadata field (informational only; not read back by
`metadata_to_chunk`). -/
def fileNameOf (p : Str) : Str :=
  p.foldl (fun acc c => if c = '/' ∨ c = '\\' then [] else acc ++ [c]) []

/-- The `" > "` delimiter of the header metadata encoding. -/
def headerSep : Str := " > ".toList

/-- Model of the ChromaDB metadata dict built by `chunk_to_metadata`
(vector_store.py). -/
structure ChunkMeta where
  source_path : Str
  file_name : Str
  file_type : Str
  chunk_index : Nat
  total_chunks : Nat
  modified : Rat
  headers : Str
  token_count : Nat
  char_start : Int
  char_end : Int
  deriving DecidableEq, Inhabited

/-- Model of `chunk_to_metadata` (vector_store.py); the headers list is
joined with `" > "` when non-empty (Python truthiness), else stored as the
empty string. -/
def chunk_to_metadata (c : Chunk) : ChunkMeta :=
  { source_path := c.source_path
    file_name := fileNameOf c.source_path
    file_type := c.file_type
    chunk_index := c.chunk_index
    total_chunks := c.total_chunks
    modified := c.modified
    headers := if c.headers ≠ [] then pyJoin headerSep c.headers else []
    token_count := c.token_count
    char_start := c.char_start
    char_end := c.char_end }

/-- Model of `metadata_to_chunk` (vector_store.py); a non-empty headers
string is split back on `" > "`, the empty string decodes to `[]`. -/
def metadata_to_chunk (m : ChunkMeta) (content : Str) : Chunk :=
  { content := content
    source_path := m.source_path
    file_type := m.file_type
    chunk_index := m.chunk_index
    total_chunks := m.total_chunks
    modified := m.modified
    char_start := m.char_start
    char_end := m.char_end
    headers := if m.headers ≠ [] then splitOnStr headerSep m.headers else []
    token_count := m.token_count }

theorem splitOnStr_eq_single (sep : Str) (_hsep : sep ≠ []) :
    ∀ s : Str, ¬ (sep <:+: s) → splitOnStr sep s = [s] := by
  intro s
  induction s with
  | nil => intro _; rfl
  | cons c rest ih =>
    intro hinf
    have hpre : ¬ (sep.isPrefixOf (c :: rest) = true) := by
      intro hp
      exact hinf (List.IsPrefix.isInfix (List.isPrefixOf_iff_prefix.mp hp))
    have hrest : ¬ (sep <:+: rest) := fun hr => hinf (List.infix_cons hr)
    rw [splitOnStr_cons, if_neg (fun hcond => hpre hcond.2), ih hrest]

theorem splitOnStr_sep_append (r : Str) :
    splitOnStr headerSep (headerSep ++ r) = [] :: splitOnStr headerSep r := by
  rw [show headerSep ++ r = ' ' :: ('>' :: ' ' :: r) from rfl]
  rw [splitOnStr_cons, if_pos]
  · rfl
  · exact ⟨by decide, List.isPrefixOf_iff_prefix.mpr ⟨r, rfl⟩⟩

theorem splitOnStr_append_sep :
    ∀ (x r : Str), x ≠ [] → ¬ (headerSep <:+: x) → ¬ ([' ', '>'] <:+ x) →
      splitOnStr headerSep (x ++ (headerSep ++ r)) = x :: splitOnStr headerSep r := by
  intro x
  induction x with
  | nil => intro r hne; exact absurd rfl hne
  | cons c x' ih =>
    intro r _ hinf hsuf
    have hpre : ¬ (headerSep.isPrefixOf (c :: (x' ++ (headerSep ++ r))) = true) := by
      intro hp
      have hp' := List.isPrefixOf_iff_prefix.mp hp
      rw [show headerSep = ' ' :: '>' :: ' ' :: [] from rfl] at hp'
      rw [List.cons_prefix_cons] at hp'
      obtain ⟨hc, hp'⟩ := hp'
      cases x' with
      | nil =>
        rw [List.nil_append,
          show (([' ', '>', ' '] : Str) ++ r) = ' ' :: ('>' :: ' ' :: r) from rfl,
          List.cons_prefix_cons] at hp'
        exact absurd hp'.1 (by decide)
      | cons e x2 =>
        rw [List.cons_append, List.cons_prefix_cons] at hp'
        obtain ⟨he, hp'⟩ := hp'
        cases x2 with
        | nil =>
          exact hsuf (by rw [← hc, ← he])
        | cons f x3 =>
          rw [List.cons_append, List.cons_prefix_cons] at hp'
          obtain ⟨hf, _⟩ := hp'
          refine hinf (List.IsPrefix.isInfix ?_)
          rw [← hc, ← he, ← hf]
          exact ⟨x3, rfl⟩
    cases x' with
    | nil =>
      rw [show ([c] ++ (headerSep ++ r) : Str) = c :: (headerSep ++ r) from rfl]
      rw [splitOnStr_cons, if_neg (fun hcond => hpre (by simpa using hcond.2))]
      rw [splitOnStr_sep_append]
    | cons e x2 =>
      have hinf' : ¬ (headerSep <:+: (e :: x2)) := fun hr => hinf (List.infix_cons hr)
      have hsuf' : ¬ ([' ', '>'] <:+ (e :: x2)) := by
        intro ⟨t, ht⟩
        exact hsuf ⟨c :: t, by rw [← ht]; rfl⟩
      rw [show ((c :: e :: x2) ++ (headerSep ++ r) : Str) =
        c :: ((e :: x2) ++ (headerSep ++ r)) from rfl]
      rw [splitOnStr_cons, if_neg (fun hcond => hpre hcond.2)]
      rw [ih r (by simp) hinf' hsuf']

theorem pyJoin_ne_nil (sep : Str) :
    ∀ hs : List Str, hs ≠ [] → (∀ h ∈ hs, h ≠ []) → pyJoin sep hs ≠ [] := by
  intro hs
  match hs with
  | [] => intro hne; exact absurd rfl hne
  | [x] => intro _ hall; exact hall x (by simp)
  | x :: y :: t =>
    intro _ hall
    have hx : x ≠ [] := hall x (by simp)
    intro hcontra
    rw [show pyJoin sep (x :: y :: t) = x ++ sep ++ pyJoin sep (y :: t) from rfl] at hcontra
    simp only [List.append_eq_nil] at hcontra
    exact hx hcontra.1.1

theorem splitOnStr_pyJoin :
    ∀ hs : List Str, hs ≠ [] →
      (∀ h ∈ hs, h ≠ [] ∧ ¬ (headerSep <:+: h) ∧ ¬ ([' ', '>'] <:+ h)) →
      splitOnStr headerSep (pyJoin headerSep hs) = hs := by
  intro hs
  induction hs with
  | nil => intro hne; exact absurd rfl hne
  | cons x t ih =>
    intro _ hgood
    obtain ⟨hx1, hx2, _⟩ := hgood x (by simp)
    cases t with
    | nil =>
      rw [show pyJoin headerSep [x] = x from rfl]
      exact splitOnStr_eq_single headerSep (by decide) x hx2
    | cons y t' =>
      obtain ⟨_, _, hx3⟩ := hgood x (by simp)
      rw [show pyJoin headerSep (x :: y :: t') =
        x ++ (headerSep ++ pyJoin headerSep (y :: t')) from by simp [pyJoin]]
      rw [splitOnStr_append_sep x _ hx1 hx2 hx3]
      rw [ih (by simp) (fun h hm => hgood h (by simp [hm]))]

/-- A chunk whose headers break the round trip although no header contains
the full delimiter `" > "`: joining `"a >"` and `"b"` gives `"a > > b"`, and
the leftmost scan of `split(" > ")` cuts it as `["a", "> b"]`. -/
def cexChunk : Chunk :=
  { content := "body".toList, source_path := "n.md".toList,
    file_type := "md".toList, chunk_index := 0, total_chunks := 1,
    modified := 1, char_start := 0, char_end := 4,
    headers := ["a >".toList, "b".toList], token_count := 2 }

theorem c9_headers_round_trip_cex :
    (∀ h ∈ cexChunk.headers, h ≠ [] ∧ ¬ (headerSep <:+: h)) ∧
      metadata_to_chunk (chunk_to_metadata cexChunk) cexChunk.content ≠ cexChunk := by
  decide

/-- C9 (amended).  The header encode/decode pair is a round trip for every
chunk whose headers are non-empty strings that do not contain the delimiter
`" > "` and do not end with the two characters `" >"`: reconstructing a
chunk from its encoded metadata and its content restores every field,
including the headers list in order. -/
theorem c9_headers_round_trip_amended (c : Chunk)
    (hgood : ∀ h ∈ c.headers, h ≠ [] ∧ ¬ (headerSep <:+: h) ∧ ¬ ([' ', '>'] <:+ h)) :
    metadata_to_chunk (chunk_to_metadata c) c.content = c := by
  by_cases hcase : c.headers = []
  · cases c
    simp_all [metadata_to_chunk, chunk_to_metadata]
  · have hjoin : pyJoin headerSep c.headers ≠ [] :=
      pyJoin_ne_nil headerSep c.headers hcase (fun h hm => (hgood h hm).1)
    have hsplit := splitOnStr_pyJoin c.headers hcase hgood
    cases c
    simp_all [metadata_to_chunk, chunk_to_metadata]

/-- A chunk with well-formed headers for the round-trip witness. -/
def goodChunk : Chunk :=
  { content := "body".toList, source_path := "n.md".toList,
    file_type := "md".toList, chunk_index := 1, total_chunks := 2,
    modified := 3, char_start := 4, char_end := 8,
    headers := ["# A".toList, "## B".toList], token_count := 2 }

theorem c9_headers_round_trip_amended_witness :
    (∀ h ∈ goodChunk.headers,
      h ≠ [] ∧ ¬ (headerSep <:+: h) ∧ ¬ ([' ', '>'] <:+ h)) ∧
      metadata_to_chunk (chunk_to_metadata goodChunk) goodChunk.content = goodChunk :=
  ⟨by decide, c9_headers_round_trip_amended goodChunk (by decide)⟩

/-- Similarity score from raw distance: `score = 1 / (1 + distance)` in
`search` (vector_store.py). -/
def scoreOf (d : Rat) : Rat := 1 / (1 + d)

/-- Model of the `SearchResult` dataclass (vector_store.py). -/
structure SearchResult where
  chunk : Chunk
  score : Rat
  distance : Rat
  deriving DecidableEq, Inhabited

/-- The parallel-array response of the external `collection.query` call. -/
structure QueryResponse where
  ids : List (List Str)
  documents : List (List Str)
  metadatas : List (List ChunkMeta)
  distances : List (List Rat)
  deriving DecidableEq, Inhabited

/-- The result-conversion loop of `search` (vector_store.py): when
`results["ids"]` is non-empty (Python truthiness) and its first entry is
non-empty, each index of the first id list yields one `SearchResult`;
otherwise the empty list is returned.  An out-of-range parallel-array access
would raise in Python and is modelled with a default (`getD`); well-formed
store responses have equal-length parallel arrays. -/
def processQueryResults (r : QueryResponse) : List SearchResult :=
  match r.ids with
  | [] => []
  | firstIds :: _ =>
    if firstIds = [] then []
    else
      (List.range firstIds.length).map (fun i =>
        let content := (r.documents.headD []).getD i []
        let metadata := (r.metadatas.headD []).getD i default
        let distance := (r.distances.headD []).getD i 0
        { chunk := metadata_to_chunk metadata content
          score := scoreOf distance
          distance := distance })

/-- Model of `search` (vector_store.py): the external `collection.query`
either raises (`Except.error`, which propagates uncaught) or returns a
response, which is converted by `processQueryResults`. -/
def search (queryResult : Except Str QueryResponse) : Except Str (List SearchResult) :=
  match queryResult with
  | Except.error e => Except.error e
  | Except.ok r => Except.ok (processQueryResults r)

/-- C3.  Every returned score is `1/(1+distance)`: for non-negative
distances the score lies in `(0, 1]` and is strictly decreasing in the
distance, and the conversion loop preserves the store's result order, so
with distances `0.1` and `0.5` the first result keeps the smaller distance
and the larger score. -/
theorem c3_score_properties :
    (∀ d : Rat, 0 ≤ d → 0 < scoreOf d ∧ scoreOf d ≤ 1) ∧
    (∀ d1 d2 : Rat, 0 ≤ d1 → d1 < d2 → scoreOf d2 < scoreOf d1) ∧
    (∀ (r : QueryResponse) (i : Nat), i < (processQueryResults r).length →
      ((processQueryResults r).getD i default).score =
        scoreOf ((r.distances.headD []).getD i 0) ∧
      ((processQueryResults r).getD i default).distance =
        (r.distances.headD []).getD i 0) := by
  refine ⟨?_, ?_, ?_⟩
  · intro d hd
    have hpos : (0 : Rat) < 1 + d := by linarith
    constructor
    · exact div_pos (by norm_num) hpos
    · rw [scoreOf, div_le_one hpos]
      linarith
  · intro d1 d2 hd1 hlt
    have hpos : (0 : Rat) < 1 + d1 := by linarith
    exact one_div_lt_one_div_of_lt hpos (by linarith)
  · intro r i h
    rcases hids : r.ids with _ | ⟨firstIds, rest⟩
    · simp [processQueryResults, hids] at h
    · by_cases hfi : firstIds = []
      · simp [processQueryResults, hids, hfi] at h
      · simp only [processQueryResults, hids, if_neg hfi] at h ⊢
        rw [List.getD_eq_getElem _ _ h]
        simp

/-- A concrete one-hit response for the score witness. -/
def cResp : QueryResponse :=
  { ids := [["n.md::chunk_0".toList]],
    documents := [["body".toList]],
    metadatas := [[chunk_to_metadata goodChunk]],
    distances := [[1/10]] }

theorem c3_score_properties_witness :
    (0 < scoreOf (1/10) ∧ scoreOf (1/10) ≤ 1) ∧
    scoreOf (1/2) < scoreOf (1/10) ∧
    ((processQueryResults cResp).getD 0 default).score =
      scoreOf ((cResp.distances.headD []).getD 0 0) :=
  ⟨c3_score_properties.1 (1/10) (by norm_num),
   c3_score_properties.2.1 (1/10) (1/2) (by norm_num) (by norm_num),
   (c3_score_properties.2.2 cResp 0 (by decide)).1⟩

/-- C8.  Zero results is not an error: whenever the store query reports no
matching ids (no id lists at all, or an empty first id list, as for any query
against an empty store), `search` returns `ok []` rather than an error, and a
raised embedding/store error propagates as an `error` value, which is a
distinct outcome from `ok []`. -/
theorem c8_zero_results_not_error :
    (∀ r : QueryResponse, (r.ids = [] ∨ ∃ t, r.ids = [] :: t) →
      search (Except.ok r) = Except.ok []) ∧
    (∀ e : Str, search (Except.error e) = Except.error e ∧
      Except.error e ≠ (Except.ok [] : Except Str (List SearchResult))) := by
  constructor
  · intro r hr
    rcases hr with h | ⟨t, h⟩ <;> simp [search, processQueryResults, h]
  · intro e
    exact ⟨rfl, by simp⟩

/-- The response ChromaDB returns for a query against an empty store: one
empty id list. -/
def emptyResp : QueryResponse :=
  { ids := [[]], documents := [[]], metadatas := [[]], distances := [[]] }

theorem c8_zero_results_not_error_witness :
    search (Except.ok emptyResp) = Except.ok [] ∧
      search (Except.error "boom".toList) = Except.error "boom".toList :=
  ⟨c8_zero_results_not_error.1 emptyResp (Or.inr ⟨[], rfl⟩),
   (c8_zero_results_not_error.2 "boom".toList).1⟩

/-- A stored record of the collection.  Modelled from the spec: the external
ChromaDB collection is the Index Store contract of §3/§4.3, a keyed store of
`(id, content, vector, metadata)` with at most one record per id. -/
structure IndexRecord where
  id : Str
  content : Str
  embedding : List Rat
  meta : ChunkMeta
  deriving DecidableEq, Inhabited

/-- The collection state: its records in insertion order. -/
abbrev Store := List IndexRecord

/-- The record `upsert_chunks` builds for one chunk: id via `make_chunk_id`,
document = chunk content, parallel embedding, metadata via
`chunk_to_metadata`. -/
def mkRecord (c : Chunk) (e : List Rat) : IndexRecord :=
  { id := make_chunk_id c, content := c.content, embedding := e,
    meta := chunk_to_metadata c }

/-- Insert-or-replace of one record by id.  Modelled from the spec: upsert is
the last-write-wins keyed write of the store contract. -/
def upsertOne (st : Store) (r : IndexRecord) : Store :=
  if st.any (fun x => x.id == r.id) then
    st.map (fun x => if x.id == r.id then r else x)
  else st ++ [r]

/-- Model of `upsert_chunks` (vector_store.py): upsert every chunk with its
parallel embedding (no-op on empty input).  The Python function also returns
the number upserted, which no claim uses. -/
def upsert_chunks (st : Store) (chunks : List Chunk) (embs : List (List Rat)) : Store :=
  (chunks.zip embs).foldl (fun s p => upsertOne s (mkRecord p.1 p.2)) st

/-- Model of `delete_by_source` (vector_store.py): collect the ids of the
records whose metadata `source_path` equals the given path, delete those ids
when there are any, and report how many. -/
def delete_by_source (st : Store) (path : Str) : Store × Nat :=
  let matchIds := (st.filter (fun r => r.meta.source_path == path)).map (fun r => r.id)
  if matchIds ≠ [] then
    (st.filter (fun r => !(matchIds.contains r.id)), matchIds.length)
  else (st, 0)

/-- Model of `get_indexed_files` (vector_store.py): map each indexed source
path to the most recent `modified` among its records, as an association list
in first-seen order (the Python dict). -/
def get_indexed_files (st : Store) : List (Str × Rat) :=
  st.foldl
    (fun m r =>
      match m.lookup r.meta.source_path with
      | none => m ++ [(r.meta.source_path, r.meta.modified)]
      | some t =>
        if r.meta.modified > t then
          m.map (fun p => if p.1 == r.meta.source_path then (p.1, r.meta.modified) else p)
        else m)
    []

/-- The reconcile loop of `index_vault` (search.py): `to_delete` starts as
`set(indexed_files.keys())` (a Python set, modelled as the deduplicated key
list); every scanned document removes its own path from `to_delete`, and is
appended to `to_index` when the force flag is set or its mtime exceeds the
recorded mtime `indexed_files.get(path, 0)`. -/
def reconcile (indexedFiles : List (Str × Rat)) (documents : List Document)
    (force : Bool) : List Document × List Str :=
  documents.foldl
    (fun acc doc =>
      let td := acc.2.erase doc.path
      let indexedMtime := (indexedFiles.lookup doc.path).getD 0
      if force || decide (doc.modified > indexedMtime) then (acc.1 ++ [doc], td)
      else (acc.1, td))
    ([], (indexedFiles.map Prod.fst).dedup)

/-- The statistics `index_vault` returns, together with the store it leaves
behind (`time_seconds` is wall clock and not modelled). -/
structure IndexVaultResult where
  store : Store
  documents_scanned : Nat
  documents_indexed : Nat
  chunks_created : Nat
  chunks_deleted : Nat
  deriving DecidableEq, Inhabited

/-- Model of `index_vault` (search.py): read the indexed-files map (taken
empty when `force`), run the reconcile loop, `delete_by_source` every path of
`to_delete`, and if anything needs indexing chunk it, embed it (`embedBatch`
models the external order-preserving `get_embeddings_batch`) and upsert it —
with no deletion of a re-indexed document's previous chunk set.  The scan
`documents` stands for the external `extract_all`. -/
def index_vault (tok : Str → Nat) (split : Str → List Str)
    (embedBatch : List Str → List (List Rat)) (st : Store)
    (documents : List Document) (force : Bool) : IndexVaultResult :=
  let indexedFiles := if force then [] else get_indexed_files st
  let plan := reconcile indexedFiles documents force
  let del := plan.2.foldl
    (fun acc p =>
      let d := delete_by_source acc.1 p
      (d.1, acc.2 + d.2))
    (st, 0)
  if plan.1 = [] then
    { store := del.1, documents_scanned := documents.length,
      documents_indexed := 0, chunks_created := 0, chunks_deleted := del.2 }
  else
    let chunks := chunk_all tok split plan.1
    let embs := embedBatch (chunks.map (fun c => c.content))
    { store := upsert_chunks del.1 chunks embs,
      documents_scanned := documents.length,
      documents_indexed := plan.1.length,
      chunks_created := chunks.length,
      chunks_deleted := del.2 }

theorem foldl_erase_filter :
    ∀ (docs : List Document) (b : List Str), b.Nodup →
      docs.foldl (fun acc d => acc.erase d.path) b =
        b.filter (fun x => decide (x ∉ docs.map Document.path)) := by
  intro docs
  induction docs with
  | nil =>
    intro b _
    simp
  | cons d rest ih =>
    intro b hb
    rw [List.foldl_cons, ih (b.erase d.path) (hb.erase _), hb.erase_eq_filter,
      List.filter_filter]
    refine List.filter_congr ?_
    intro x _
    by_cases h1 : x = d.path <;> by_cases h2 : x ∈ rest.map Document.path <;>
      simp [h1, h2]

theorem reconcile_foldl (indexedFiles : List (Str × Rat)) (force : Bool) :
    ∀ (docs : List Document) (a : List Document) (b : List Str),
      docs.foldl
        (fun acc doc =>
          let td := acc.2.erase doc.path
          let indexedMtime := (indexedFiles.lookup doc.path).getD 0
          if force || decide (doc.modified > indexedMtime) then (acc.1 ++ [doc], td)
          else (acc.1, td))
        (a, b) =
      (a ++ docs.filter
          (fun d => force || decide (d.modified > (indexedFiles.lookup d.path).getD 0)),
        docs.foldl (fun acc d => acc.erase d.path) b) := by
  intro docs
  induction docs with
  | nil => intro a b; simp
  | cons d rest ih =>
    intro a b
    rw [List.foldl_cons]
    by_cases hcond :
        (force || decide (d.modified > (indexedFiles.lookup d.path).getD 0)) = true
    · simp only [hcond, if_pos]
      rw [ih]
      rw [Prod.mk.injEq]
      refine ⟨?_, rfl⟩
      simp [List.filter_cons, hcond]
    · simp only [Bool.not_eq_true] at hcond
      simp only [hcond, Bool.false_eq_true, if_neg, not_false_iff]
      rw [ih]
      rw [Prod.mk.injEq]
      refine ⟨?_, rfl⟩
      simp [List.filter_cons, hcond]

/-- C2 (amended).  Without `force`, `to_delete` is exactly the set of indexed
paths absent from the fresh scan and `to_index` is exactly the documents
whose mtime exceeds the store's recorded mtime for that path (an unindexed
path records as 0, so a new document with positive mtime is included); with
`force`, the indexed-files map is read as empty, hence `to_delete` is empty —
vanished paths are NOT deleted — while every scanned document is in
`to_index`. -/
theorem c2_reconcile_plan_amended (indexedFiles : List (Str × Rat))
    (documents : List Document) :
    (reconcile indexedFiles documents false).2.toFinset =
      (indexedFiles.map Prod.fst).toFinset \ (documents.map Document.path).toFinset ∧
    (reconcile indexedFiles documents false).1 =
      documents.filter
        (fun d => decide (d.modified > (indexedFiles.lookup d.path).getD 0)) ∧
    (reconcile [] documents true).1 = documents ∧
    (reconcile [] documents true).2 = [] := by
  refine ⟨?_, ?_, ?_, ?_⟩
  · rw [reconcile, reconcile_foldl]
    simp only
    rw [foldl_erase_filter documents _ (List.nodup_dedup _)]
    ext x
    simp [List.mem_filter, Finset.mem_sdiff]
  · rw [reconcile, reconcile_foldl]
    simp
  · rw [reconcile, reconcile_foldl]
    simp
  · rw [reconcile, reconcile_foldl]
    rw [foldl_erase_filter documents _ (List.nodup_dedup _)]
    simp

/-- Model of pathlib `Path(p).suffix` on the file name: the last-dot
extension, empty when the name has no dot, when the only dot is leading
(dotfile), or when the dot is final. -/
def suffixOf (name : Str) : Str :=
  match name.reverse.findIdx? (fun c => c == '.') with
  | none => []
  | some j =>
    let i := name.length - 1 - j
    if 0 < i ∧ i < name.length - 1 then name.drop i else []

/-- Model of `path.suffix.lstrip('.').lower() or 'txt'` in
`index_single_file` (search.py). -/
def fileTypeOf (path : Str) : Str :=
  let s := ((suffixOf (fileNameOf path)).dropWhile (fun c => c == '.')).map Char.toLower
  if s = [] then "txt".toList else s

/-- The `Document` that `index_single_file` builds for an existing file. -/
def singleDoc (path content : Str) (mtime : Rat) : Document :=
  { path := path, content := content, file_type := fileTypeOf path,
    modified := mtime }

/-- Model of the file-exists branch of `index_single_file` (search.py): the
external filesystem read supplies `content` (the `extract_text` result) and
`mtime`; empty content, or a chunking that yields no chunks, returns 0 with
the store untouched — before any deletion — otherwise the file's previous
records are deleted by source and the new chunks upserted.  (The
missing-file branch of the Python function only calls `delete_by_source`.) -/
def index_single_file (tok : Str → Nat) (split : Str → List Str)
    (embedBatch : List Str → List (List Rat)) (st : Store) (path : Str)
    (content : Str) (mtime : Rat) : Store × Nat :=
  if content = [] then (st, 0)
  else
    let doc := singleDoc path content mtime
    let chunks := chunk_all tok split [doc]
    if chunks = [] then (st, 0)
    else
      let embs := embedBatch (chunks.map (fun c => c.content))
      let st1 := (delete_by_source st path).1
      (upsert_chunks st1 chunks embs, chunks.length)

/-- A constant-vector embedder for concrete evaluations (order- and
length-preserving, like the external batch embedder). -/
def cEmbed : List Str → List (List Rat) := fun ts => ts.map (fun _ => [1])

/-- Chunk 0 of the previously indexed two-chunk version of `A.md`. -/
def oldRecA0 : IndexRecord :=
  { id := "A.md::chunk_0".toList, content := "old one".toList, embedding := [1],
    meta := { source_path := "A.md".toList, file_name := "A.md".toList,
              file_type := "md".toList, chunk_index := 0, total_chunks := 2,
              modified := 100, headers := [], token_count := 2,
              char_start := 0, char_end := 7 } }

/-- Chunk 1 of the previously indexed two-chunk version of `A.md`. -/
def oldRecA1 : IndexRecord :=
  { id := "A.md::chunk_1".toList, content := "old two".toList, embedding := [1],
    meta := { source_path := "A.md".toList, file_name := "A.md".toList,
              file_type := "md".toList, chunk_index := 1, total_chunks := 2,
              modified := 100, headers := [], token_count := 2,
              char_start := 7, char_end := 14 } }

/-- The modified `A.md`, re-scanned with a newer mtime and shorter content. -/
def newDocA : Document :=
  { path := "A.md".toList, content := "new".toList, file_type := "md".toList,
    modified := 200 }

/-- C1.  Evaluation at the failing input: the store holds N = 2 records for
`A.md` (chunk indices 0 and 1, mtime 100), the fresh scan re-chunks the
modified `A.md` (mtime 200) into M = 1 chunk, and after the full reconcile of
`index_vault` the store still holds 2 records for that source — the stale
record `A.md::chunk_1` with chunk index 1 ≥ M survives, because `index_vault`
upserts without first deleting the document's previous chunk set. -/
theorem c1_index_vault_leaves_stale_chunk :
    (chunk_all cTok cSplit1 [newDocA]).length = 1 ∧
    ((index_vault cTok cSplit1 cEmbed [oldRecA0, oldRecA1] [newDocA] false).store.filter
      (fun r => r.meta.source_path == "A.md".toList)).length = 2 ∧
    (index_vault cTok cSplit1 cEmbed [oldRecA0, oldRecA1] [newDocA] false).store.any
      (fun r => r.id == "A.md::chunk_1".toList && decide (1 ≤ r.meta.chunk_index)) =
      true := by
  decide

/-- C2, counterexample to the claim as stated: with `force` set, the
indexed-files map is read as empty, so the indexed path `A.md` — absent from
the (empty) fresh scan — is not in `to_delete` and is never passed to
`delete_by_source`: its record survives the reconcile. -/
theorem c2_force_skips_deletion_cex :
    get_indexed_files [oldRecA0] = [("A.md".toList, 100)] ∧
    (reconcile [] ([] : List Document) true).2 = [] ∧
    (index_vault cTok cSplit1 cEmbed [oldRecA0] [] true).store = [oldRecA0] ∧
    (index_vault cTok cSplit1 cEmbed [oldRecA0] [] true).chunks_deleted = 0 := by
  decide

/-- The worked example of the spec: indexed `{A:100, B:100}`, fresh scan
`{A:100, B:200, C:50}`, no force — `to_index = [B, C]`, `to_delete = ∅`, and
A is untouched. -/
theorem reconcile_example_abc :
    (reconcile [("A".toList, 100), ("B".toList, 100)]
        [⟨"A".toList, "a".toList, "txt".toList, 100⟩,
         ⟨"B".toList, "b".toList, "txt".toList, 200⟩,
         ⟨"C".toList, "c".toList, "txt".toList, 50⟩] false).1 =
      [⟨"B".toList, "b".toList, "txt".toList, 200⟩,
       ⟨"C".toList, "c".toList, "txt".toList, 50⟩] ∧
    (reconcile [("A".toList, 100), ("B".toList, 100)]
        [⟨"A".toList, "a".toList, "txt".toList, 100⟩,
         ⟨"B".toList, "b".toList, "txt".toList, 200⟩,
         ⟨"C".toList, "c".toList, "txt".toList, 50⟩] false).2 = [] := by
  decide

theorem mem_delete_by_source (st : Store) (path : Str) :
    ∀ r ∈ (delete_by_source st path).1, r ∈ st ∧ r.meta.source_path ≠ path := by
  intro r hr
  simp only [delete_by_source] at hr
  split at hr
  · next hne =>
    have hmem := List.mem_of_mem_filter hr
    have hcond := List.of_mem_filter hr
    refine ⟨hmem, ?_⟩
    intro hpath
    have hid : r.id ∈ (st.filter (fun x => x.meta.source_path == path)).map
        (fun x => x.id) :=
      List.mem_map_of_mem _ (List.mem_filter.mpr ⟨hmem, by simp [hpath]⟩)
    simp only [Bool.not_eq_true'] at hcond
    have hc2 : ((st.filter (fun x => x.meta.source_path == path)).map
        (fun x => x.id)).contains r.id = true := by
      have := List.elem_eq_true_of_mem hid
      exact this
    rw [hcond] at hc2
    exact absurd hc2 (by simp)
  · next hne =>
    simp only [ne_eq, not_not, List.map_eq_nil_iff] at hne
    refine ⟨hr, ?_⟩
    intro hpath
    have := List.filter_eq_nil_iff.mp hne r hr
    simp [hpath] at this

theorem delete_by_source_sublist (st : Store) (path : Str) :
    (delete_by_source st path).1.Sublist st := by
  simp only [delete_by_source]
  split
  · exact List.filter_sublist _
  · exact List.Sublist.refl _

theorem delete_by_source_ids_nodup (st : Store) (path : Str)
    (h : (st.map (fun r => r.id)).Nodup) :
    ((delete_by_source st path).1.map (fun r => r.id)).Nodup :=
  h.sublist ((delete_by_source_sublist st path).map _)

theorem upsertOne_ids_nodup (s : Store) (r : IndexRecord)
    (h : (s.map (fun x => x.id)).Nodup) :
    ((upsertOne s r).map (fun x => x.id)).Nodup := by
  rw [upsertOne]
  split
  · next hany =>
    have hmap : (s.map (fun x => if x.id == r.id then r else x)).map (fun x => x.id) =
        s.map (fun x => x.id) := by
      rw [List.map_map]
      refine List.map_congr_left ?_
      intro x _
      by_cases hx : x.id == r.id
      · simp only [Function.comp, hx, if_pos]
        exact (eq_of_beq hx).symm
      · simp [Function.comp, hx]
    rw [hmap]
    exact h
  · next hany =>
    rw [List.map_append, List.nodup_append]
    refine ⟨h, by simp, ?_⟩
    intro a ha hb
    simp only [List.map_cons, List.map_nil, List.mem_singleton] at hb
    obtain ⟨x, hx, hxa⟩ := List.mem_map.mp ha
    rw [Bool.not_eq_true, List.any_eq_false] at hany
    have := hany x hx
    rw [hxa, hb] at this
    simp at this

theorem upsert_foldl_ids_nodup :
    ∀ (rs : List IndexRecord) (s : Store), (s.map (fun x => x.id)).Nodup →
      ((rs.foldl upsertOne s).map (fun x => x.id)).Nodup := by
  intro rs
  induction rs with
  | nil => intro s h; exact h
  | cons r rs' ih =>
    intro s h
    rw [List.foldl_cons]
    exact ih (upsertOne s r) (upsertOne_ids_nodup s r h)

theorem upsert_mem_iff (path : Str) :
    ∀ (rs : List IndexRecord) (s : Store),
      (∀ r ∈ rs, r.meta.source_path = path) →
      ((rs.map (fun y => y.id)).Nodup) →
      (∀ x ∈ s, x.meta.source_path = path → x.id ∉ rs.map (fun y => y.id)) →
      ((s.map (fun x => x.id)).Nodup) →
      ∀ x, (x ∈ rs.foldl upsertOne s ∧ x.meta.source_path = path) ↔
        ((x ∈ s ∧ x.meta.source_path = path) ∨ x ∈ rs) := by
  intro rs
  induction rs with
  | nil =>
    intro s _ _ _ _ x
    simp
  | cons r rs' ih =>
    intro s hsrc hnodup hs hsid x
    rw [List.foldl_cons]
    have hsrc' : ∀ q ∈ rs', q.meta.source_path = path := fun q hq => hsrc q (by simp [hq])
    have hnodup' : (rs'.map (fun y => y.id)).Nodup := by
      simp only [List.map_cons, List.nodup_cons] at hnodup
      exact hnodup.2
    have hrid_not : r.id ∉ rs'.map (fun y => y.id) := by
      simp only [List.map_cons, List.nodup_cons] at hnodup
      exact hnodup.1
    have hs' : ∀ y ∈ upsertOne s r, y.meta.source_path = path →
        y.id ∉ rs'.map (fun z => z.id) := by
      intro y hy hysrc
      rw [upsertOne] at hy
      split at hy
      · obtain ⟨z, hz, hfz⟩ := List.mem_map.mp hy
        by_cases hzid : z.id == r.id
        · rw [if_pos hzid] at hfz
          rw [← hfz]
          exact hrid_not
        · rw [if_neg hzid] at hfz
          rw [← hfz] at hysrc ⊢
          have := hs z hz hysrc
          simp only [List.map_cons, List.mem_cons] at this
          exact fun hmem => this (Or.inr hmem)
      · rcases List.mem_append.mp hy with h | h
        · have := hs y h hysrc
          simp only [List.map_cons, List.mem_cons] at this
          exact fun hmem => this (Or.inr hmem)
        · simp only [List.mem_singleton] at h
          rw [h]
          exact hrid_not
    have hsid' := upsertOne_ids_nodup s r hsid
    rw [ih (upsertOne s r) hsrc' hnodup' hs' hsid' x]
    constructor
    · rintro (⟨hmem, hsrc_x⟩ | hmem)
      · rw [upsertOne] at hmem
        split at hmem
        · obtain ⟨z, hz, hfz⟩ := List.mem_map.mp hmem
          by_cases hzid : z.id == r.id
          · rw [if_pos hzid] at hfz
            right
            rw [← hfz]
            simp
          · rw [if_neg hzid] at hfz
            exact Or.inl ⟨hfz ▸ hz, hsrc_x⟩
        · rcases List.mem_append.mp hmem with h | h
          · exact Or.inl ⟨h, hsrc_x⟩
          · simp only [List.mem_singleton] at h
            right
            simp [h]
      · right
        simp [hmem]
    · rintro (⟨hmem, hsrc_x⟩ | hmem)
      · left
        refine ⟨?_, hsrc_x⟩
        rw [upsertOne]
        split
        · next hany =>
          have hxid : ¬ (x.id == r.id) := by
            intro hbeq
            have hnot := hs x hmem hsrc_x
            simp only [List.map_cons, List.mem_cons] at hnot
            exact hnot (Or.inl (eq_of_beq hbeq))
          exact List.mem_map.mpr ⟨x, hmem, by rw [if_neg hxid]⟩
        · exact List.mem_append_left _ hmem
      · rcases List.mem_cons.mp hmem with hx | hx
        · left
          refine ⟨?_, by rw [hx]; exact hsrc r (by simp)⟩
          rw [upsertOne]
          split
          · next hany =>
            obtain ⟨z, hz, hzid⟩ := List.any_eq_true.mp hany
            refine List.mem_map.mpr ⟨z, hz, ?_⟩
            rw [if_pos hzid, hx]
          · rw [hx]
            exact List.mem_append_right _ (by simp)
        · right
          exact hx

theorem chunkFirstPass_source (tok : Str → Nat) (doc : Document) (n : Nat) :
    ∀ (texts : List Str) (i : Nat) (pos : Int),
      ∀ c ∈ chunkFirstPass tok doc n texts i pos, c.source_path = doc.path := by
  intro texts
  induction texts with
  | nil => intro i pos c hc; simp [chunkFirstPass] at hc
  | cons t rest ih =>
    intro i pos c hc
    simp only [chunkFirstPass, List.mem_cons] at hc
    rcases hc with hc | hc
    · rw [hc]
    · exact ih (i + 1) _ c hc

theorem chunk_document_source (tok : Str → Nat) (split : Str → List Str)
    (doc : Document) : ∀ c ∈ chunk_document tok split doc, c.source_path = doc.path := by
  intro c hc
  simp only [chunk_document, List.mem_map] at hc
  obtain ⟨c', hc', rfl⟩ := hc
  exact chunkFirstPass_source tok doc _ _ _ _ c' hc'

theorem chunk_document_map_index (tok : Str → Nat) (split : Str → List Str)
    (doc : Document) :
    (chunk_document tok split doc).map (fun c => c.chunk_index) =
      List.range (chunk_document tok split doc).length := by
  refine List.ext_getElem (by simp) ?_
  intro i h1 h2
  rw [List.getElem_map, List.getElem_range]
  exact chunk_document_chunk_index_getElem tok split doc i (by simpa using h1)

theorem chunk_document_nodup (tok : Str → Nat) (split : Str → List Str)
    (doc : Document) : (chunk_document tok split doc).Nodup :=
  List.Nodup.of_map (fun c => c.chunk_index)
    (by rw [chunk_document_map_index]; exact List.nodup_range _)

theorem chunk_document_index_lt (tok : Str → Nat) (split : Str → List Str)
    (doc : Document) :
    ∀ c ∈ chunk_document tok split doc,
      c.chunk_index < (chunk_document tok split doc).length := by
  intro c hc
  have : c.chunk_index ∈ (chunk_document tok split doc).map (fun c => c.chunk_index) :=
    List.mem_map_of_mem _ hc
  rw [chunk_document_map_index] at this
  exact List.mem_range.mp this

theorem chunk_document_ids_nodup (tok : Str → Nat) (split : Str → List Str)
    (doc : Document) : ((chunk_document tok split doc).map make_chunk_id).Nodup := by
  refine List.Nodup.map_on ?_ (chunk_document_nodup tok split doc)
  intro y hy z hz hyz
  have hsy := chunk_document_source tok split doc y hy
  have hsz := chunk_document_source tok split doc z hz
  have hdec : toDecimal y.chunk_index = toDecimal z.chunk_index := by
    rw [make_chunk_id, make_chunk_id, hsy, hsz] at hyz
    exact List.append_cancel_left hyz
  have hidx := toDecimal_injective hdec
  exact List.inj_on_of_nodup_map
    (by rw [chunk_document_map_index]; exact List.nodup_range _) hy hz hidx

theorem chunk_all_singleton (tok : Str → Nat) (split : Str → List Str)
    (doc : Document) :
    chunk_all tok split [doc] =
      if pyStrip doc.content ≠ [] then chunk_document tok split doc else [] := by
  simp only [chunk_all, List.foldl_cons, List.foldl_nil]
  split
  · simp
  · rfl

/-- The records that one `index_single_file` pass upserts for its path. -/
def newChunkRecords (tok : Str → Nat) (split : Str → List Str)
    (embedBatch : List Str → List (List Rat)) (path content : Str) (mtime : Rat) :
    List IndexRecord :=
  ((chunk_all tok split [singleDoc path content mtime]).zip
    (embedBatch ((chunk_all tok split [singleDoc path content mtime]).map
      (fun c => c.content)))).map (fun p => mkRecord p.1 p.2)

/-- Supporting result contrasting with the `index_vault` defect: the
single-file path genuinely replaces a document's chunk set.  Whenever the
file exists, its new chunking is non-empty, the store's ids are unique and
the batch embedder is length-preserving, the records for that source path in
the resulting store are exactly the new records, their count equals the new
chunk count M, and no surviving record of that source carries a chunk index
≥ M. -/
theorem index_single_file_replaces (tok : Str → Nat) (split : Str → List Str)
    (embedBatch : List Str → List (List Rat)) (st : Store) (path content : Str)
    (mtime : Rat) (hids : (st.map (fun r => r.id)).Nodup) (hcontent : content ≠ [])
    (hchunks : chunk_all tok split [singleDoc path content mtime] ≠ [])
    (hembs : (embedBatch ((chunk_all tok split [singleDoc path content mtime]).map
        (fun c => c.content))).length =
      (chunk_all tok split [singleDoc path content mtime]).length) :
    (∀ x, (x ∈ (index_single_file tok split embedBatch st path content mtime).1 ∧
        x.meta.source_path = path) ↔
      x ∈ newChunkRecords tok split embedBatch path content mtime) ∧
    ((index_single_file tok split embedBatch st path content mtime).1.filter
      (fun r => r.meta.source_path == path)).length =
      (chunk_all tok split [singleDoc path content mtime]).length ∧
    (∀ x ∈ (index_single_file tok split embedBatch st path content mtime).1,
      x.meta.source_path = path →
        x.meta.chunk_index < (chunk_all tok split [singleDoc path content mtime]).length) := by
  have hstrip : pyStrip (singleDoc path content mtime).content ≠ [] := by
    intro h
    apply hchunks
    rw [chunk_all_singleton, if_neg (by simp [h])]
  have hcsplit : chunk_all tok split [singleDoc path content mtime] =
      chunk_document tok split (singleDoc path content mtime) := by
    rw [chunk_all_singleton, if_pos hstrip]
  have hresult : (index_single_file tok split embedBatch st path content mtime).1 =
      (newChunkRecords tok split embedBatch path content mtime).foldl upsertOne
        (delete_by_source st path).1 := by
    simp only [index_single_file, if_neg hcontent, if_neg hchunks]
    rw [upsert_chunks, newChunkRecords, List.foldl_map]
  have hsrcNew : ∀ y ∈ newChunkRecords tok split embedBatch path content mtime,
      y.meta.source_path = path := by
    intro y hy
    rw [newChunkRecords] at hy
    obtain ⟨p, hp, rfl⟩ := List.mem_map.mp hy
    have hc : p.1 ∈ chunk_all tok split [singleDoc path content mtime] :=
      (List.of_mem_zip hp).1
    rw [hcsplit] at hc
    have := chunk_document_source tok split (singleDoc path content mtime) p.1 hc
    exact this
  have hidsNewEq : (newChunkRecords tok split embedBatch path content mtime).map
      (fun y => y.id) =
      (chunk_all tok split [singleDoc path content mtime]).map make_chunk_id := by
    rw [newChunkRecords, List.map_map]
    rw [show ((fun y : IndexRecord => y.id) ∘ fun p : Chunk × List Rat =>
      mkRecord p.1 p.2) = (fun p : Chunk × List Rat => make_chunk_id p.1) from rfl]
    rw [show (fun p : Chunk × List Rat => make_chunk_id p.1) =
      (make_chunk_id ∘ Prod.fst) from rfl]
    rw [← List.map_map, List.map_fst_zip _ _ (le_of_eq hembs.symm)]
  have hidsNew : ((newChunkRecords tok split embedBatch path content mtime).map
      (fun y => y.id)).Nodup := by
    rw [hidsNewEq, hcsplit]
    exact chunk_document_ids_nodup tok split (singleDoc path content mtime)
  have hs1src : ∀ y ∈ (delete_by_source st path).1, y.meta.source_path = path →
      y.id ∉ (newChunkRecords tok split embedBatch path content mtime).map
        (fun z => z.id) := by
    intro y hy hsrc
    exact absurd hsrc (mem_delete_by_source st path y hy).2
  have hs1ids := delete_by_source_ids_nodup st path hids
  have hmain := upsert_mem_iff path (newChunkRecords tok split embedBatch path content mtime)
    (delete_by_source st path).1 hsrcNew hidsNew hs1src hs1ids
  have hiff : ∀ x, (x ∈ (index_single_file tok split embedBatch st path content mtime).1 ∧
      x.meta.source_path = path) ↔
      x ∈ newChunkRecords tok split embedBatch path content mtime := by
    intro x
    rw [hresult]
    rw [hmain x]
    constructor
    · rintro (⟨hmem, hsrc⟩ | h)
      · exact absurd hsrc (mem_delete_by_source st path x hmem).2
      · exact h
    · intro h
      exact Or.inr h
  refine ⟨hiff, ?_, ?_⟩
  · have hres_ids := upsert_foldl_ids_nodup
      (newChunkRecords tok split embedBatch path content mtime)
      (delete_by_source st path).1 hs1ids
    have hres_nodup : ((newChunkRecords tok split embedBatch path content mtime).foldl
        upsertOne (delete_by_source st path).1).Nodup :=
      List.Nodup.of_map _ hres_ids
    have hnew_nodup : (newChunkRecords tok split embedBatch path content mtime).Nodup :=
      List.Nodup.of_map _ hidsNew
    have hfil_nodup := hres_nodup.filter (fun r => r.meta.source_path == path)
    have hsetEq : (((newChunkRecords tok split embedBatch path content mtime).foldl
        upsertOne (delete_by_source st path).1).filter
          (fun r => r.meta.source_path == path)).toFinset =
        (newChunkRecords tok split embedBatch path content mtime).toFinset := by
      ext y
      simp only [List.mem_toFinset, List.mem_filter, beq_iff_eq]
      rw [← hiff y, hresult]
    rw [hresult, ← List.toFinset_card_of_nodup hfil_nodup, hsetEq,
      List.toFinset_card_of_nodup hnew_nodup]
    rw [newChunkRecords, List.length_map, List.length_zip, hembs, Nat.min_self]
  · intro x hx hsrc
    have hxnew := (hiff x).mp ⟨hx, hsrc⟩
    rw [newChunkRecords] at hxnew
    obtain ⟨p, hp, rfl⟩ := List.mem_map.mp hxnew
    have hc : p.1 ∈ chunk_all tok split [singleDoc path content mtime] :=
      (List.of_mem_zip hp).1
    rw [hcsplit] at hc ⊢
    exact chunk_document_index_lt tok split (singleDoc path content mtime) p.1 hc

end SemanticSearch
